import Mathlib

/-!
Shallow embedding of the `prompthistory` CLI core (TypeScript) in Lean 4.

Scope of the model:
* JavaScript strings are modelled as `List Char` (`JSString`); `.length` is the
  list length.  The claims at hand only involve lengths, prefixes/suffixes,
  trimming, lower-casing and substring tests, which this model captures.
* `Date` values are modelled by their `getTime()` value, an `Int` (millisecond
  epoch).  JSON numbers appearing in the claims are integral, so JSON numbers
  are modelled as `Int`.
* `JSON.parse` is an external library routine; a raw input line is therefore
  modelled as the pair of its text and the outcome of `JSON.parse` on it
  (`none` when parsing throws).
* The `Fuse` fuzzy index is an external library; an engine carries an abstract
  query function standing for `fuse.search`.
* `Array.prototype.sort` is stable per the ECMAScript specification; it is
  modelled by `List.insertionSort`, a stable sort, with the comparator order
  of `parseMultiClientHistory`.
-/

/-! ## JavaScript string primitives -/

abbrev JSString := List Char

/-- Model of `str.trimStart()`: drop leading whitespace. -/
def jsTrimStart (s : JSString) : JSString := s.dropWhile Char.isWhitespace

/-- Model of `str.trimEnd()`: drop trailing whitespace. -/
def jsTrimEnd (s : JSString) : JSString := (s.reverse.dropWhile Char.isWhitespace).reverse

/-- Model of `str.trim()`: drop leading and trailing whitespace. -/
def jsTrim (s : JSString) : JSString := jsTrimEnd (jsTrimStart s)

/-- Model of `str.toLowerCase()` (character-wise lower-casing). -/
def jsToLower (s : JSString) : JSString := s.map Char.toLower

/-- Model of `str.startsWith(c)` for a single character. -/
def jsStartsWithChar (s : JSString) (c : Char) : Bool :=
  match s with
  | [] => false
  | d :: _ => d == c

/-- Model of `haystack.includes(needle)`: substring test. -/
def jsIncludes (haystack needle : JSString) : Bool := decide (needle <:+: haystack)

/-! ## Data model (`src/types/history.ts`) -/

/-- Model of the `PastedContent` interface.  The `type` field is the literal
string `text` and carries no information, so it is not stored. -/
structure PastedContent where
  id : Int
  content : Option JSString
  contentHash : Option JSString
deriving Repr, DecidableEq

/-- Model of the `HistoryEntry` interface. -/
structure HistoryEntry where
  display : JSString
  pastedContents : List (JSString × PastedContent)
  timestamp : Int
  project : JSString
  sessionId : Option JSString
deriving Repr, DecidableEq

/-- Model of the `EnrichedEntry` interface (a `HistoryEntry` plus the metadata
added during parsing). -/
structure EnrichedEntry extends HistoryEntry where
  _lineNumber : Nat
  _truncatedDisplay : JSString
  _isSlashCommand : Bool
deriving Repr, DecidableEq

/-! ## JSON values and the entry schema (`src/core/schema.ts`) -/

/-- JSON values as produced by `JSON.parse`.  Numbers are modelled as
integers: every number the schema inspects (`timestamp`, `id`) is integral. -/
inductive Json where
  | null : Json
  | bool (b : Bool) : Json
  | num (n : Int) : Json
  | str (s : JSString) : Json
  | arr (elems : List Json) : Json
  | obj (fields : List (JSString × Json)) : Json

/-- Field lookup in a parsed JSON object.  `JSON.parse` yields objects with
distinct keys, so first-match lookup is faithful. -/
def lookupField (fields : List (JSString × Json)) (key : JSString) : Option Json :=
  (fields.find? (fun p => p.1 == key)).map (fun p => p.2)

def MIN_TIMESTAMP : Int := 1000000000000

def MAX_DISPLAY_LENGTH : Nat := 500

/-- Hexadecimal digit test (both cases), as in the UUID regex character class. -/
def isHexChar (c : Char) : Bool :=
  c.isDigit || ('a' ≤ c && c ≤ 'f') || ('A' ≤ c && c ≤ 'F')

/-- Model of the anchored case-insensitive UUID regex
`8-4-4-4-12` hex groups separated by hyphens. -/
def uuidMatch (s : JSString) : Bool :=
  s.length == 36 &&
    (List.range 36).all (fun i =>
      if i == 8 || i == 13 || i == 18 || i == 23 then s.getD i ' ' == '-'
      else isHexChar (s.getD i ' '))

def idKey : JSString := "id".toList
def typeKey : JSString := "type".toList
def textLit : JSString := "text".toList
def contentKey : JSString := "content".toList
def contentHashKey : JSString := "contentHash".toList
def displayKey : JSString := "display".toList
def pastedContentsKey : JSString := "pastedContents".toList
def timestampKey : JSString := "timestamp".toList
def projectKey : JSString := "project".toList
def sessionIdKey : JSString := "sessionId".toList

/-- Model of `PastedContentSchema.safeParse`: an object whose `id` is a
number, whose `type` is the literal string `text`, and whose `content` and
`contentHash`, when present, are strings.  Unknown keys are stripped (zod
object default). -/
def safeParsePastedContent (j : Json) : Option PastedContent :=
  match j with
  | Json.obj fields =>
    match lookupField fields idKey, lookupField fields typeKey with
    | some (Json.num i), some (Json.str t) =>
      if t == textLit then
        match lookupField fields contentKey, lookupField fields contentHashKey with
        | none, none => some ⟨i, none, none⟩
        | some (Json.str c), none => some ⟨i, some c, none⟩
        | none, some (Json.str h) => some ⟨i, none, some h⟩
        | some (Json.str c), some (Json.str h) => some ⟨i, some c, some h⟩
        | _, _ => none
      else none
    | _, _ => none
  | _ => none

/-- Model of the `pastedContents` field check:
`z.record(z.string(), PastedContentSchema).or(z.object(...))` — the first
branch demands every value validate as a `PastedContent`; the fallback branch
`z.object` of the empty shape accepts any object and strips all keys, yielding
the empty record. -/
def parsePastedContentsField (j : Json) : Option (List (JSString × PastedContent)) :=
  match j with
  | Json.obj fields =>
    if fields.all (fun p => (safeParsePastedContent p.2).isSome) then
      some (fields.filterMap (fun p => (safeParsePastedContent p.2).map (fun pc => (p.1, pc))))
    else some []
  | _ => none

/-- Model of `HistoryEntrySchema.safeParse` (success case as `some`): the
object must have a string `display`, an object-shaped `pastedContents`, a
numeric `timestamp` at least `MIN_TIMESTAMP`, a string `project`, and an
optional string `sessionId` matching the UUID regex when present.  Extra keys
are permitted by the `catchall`; they carry no information used downstream
and are not stored. -/
def safeParseHistoryEntry (j : Json) : Option HistoryEntry :=
  match j with
  | Json.obj fields =>
    match lookupField fields displayKey, lookupField fields pastedContentsKey,
        lookupField fields timestampKey, lookupField fields projectKey with
    | some (Json.str d), some pcJson, some (Json.num ts), some (Json.str p) =>
      match parsePastedContentsField pcJson with
      | some pcs =>
        if MIN_TIMESTAMP ≤ ts then
          match lookupField fields sessionIdKey with
          | none => some ⟨d, pcs, ts, p, none⟩
          | some (Json.str sid) => if uuidMatch sid then some ⟨d, pcs, ts, p, some sid⟩ else none
          | some _ => none
        else none
      | none => none
    | _, _, _, _ => none
  | _ => none

/-- Model of `truncateDisplay`: cap `display` at `MAX_DISPLAY_LENGTH` code
units; when over the cap, keep the first `MAX_DISPLAY_LENGTH - 3` units and
append a literal three-dot marker. -/
def truncateDisplay (display : JSString) : JSString :=
  if display.length ≤ MAX_DISPLAY_LENGTH then display
  else display.take (MAX_DISPLAY_LENGTH - 3) ++ ['.', '.', '.']

/-- Model of `isSlashCommand`: the display starts with a slash after
`trimStart`. -/
def isSlashCommand (display : JSString) : Bool :=
  jsStartsWithChar (jsTrimStart display) '/'

/-- Model of one raw input line: its text together with the outcome of
`JSON.parse` on that text (`none` when parsing throws). -/
structure RawLine where
  text : JSString
  json : Option Json

/-- Model of `parseEntry`: `JSON.parse` failure or schema failure yields
`null` (after a `console.warn`, never an exception); success yields the
validated entry enriched with `_lineNumber`, `_truncatedDisplay` and
`_isSlashCommand`. -/
def parseEntry (line : RawLine) (lineNumber : Nat) : Option EnrichedEntry :=
  match line.json with
  | none => none
  | some j =>
    match safeParseHistoryEntry j with
    | none => none
    | some e =>
      some { toHistoryEntry := e
             _lineNumber := lineNumber
             _truncatedDisplay := truncateDisplay e.display
             _isSlashCommand := isSlashCommand e.display }

/-! ## JSONL ingestion (`src/core/parser.ts`, `parseHistoryJsonl`) -/

/-- Outcome of ingesting a line stream: the accepted entries in order, and
the line numbers at which `parseEntry` emitted a `console.warn` diagnostic. -/
structure ParseOutcome where
  entries : List EnrichedEntry
  warnings : List Nat
deriving Repr, DecidableEq

/-- Whether a raw line is blank (whitespace-only), the `!line.trim()` test. -/
def isBlankLine (l : RawLine) : Bool := (jsTrim l.text).isEmpty

/-- The loop body of `parseHistoryJsonl`: lines are numbered consecutively
starting from `n`; blank lines are skipped silently; other lines go through
`parseEntry`, contributing an entry on success and a diagnostic on failure. -/
def parseLines (n : Nat) : List RawLine → ParseOutcome
  | [] => ⟨[], []⟩
  | l :: ls =>
    let rest := parseLines (n + 1) ls
    if isBlankLine l then rest
    else
      match parseEntry l n with
      | some e => ⟨e :: rest.entries, rest.warnings⟩
      | none => ⟨rest.entries, n :: rest.warnings⟩

/-- Model of `parseHistoryJsonl` on the stream of physical lines of the file
(line numbering starts at 1). -/
def parseHistoryJsonl (lines : List RawLine) : ParseOutcome := parseLines 1 lines

/-- Whether `parseEntry` accepts a line; acceptance does not depend on the
line number passed in. -/
def lineValid (l : RawLine) : Bool := (l.json.bind safeParseHistoryEntry).isSome

/-! ## Search engine (`src/core/search.ts`) -/

/-- Model of the `SearchOptions` interface; `Date` bounds are carried as
their `getTime()` values. -/
structure SearchOptions where
  query : Option JSString := none
  project : Option JSString := none
  «from» : Option Int := none
  «to» : Option Int := none
  limit : Option Nat := none
  unique : Bool := false
  includeSlashCommands : Bool := false

/-- Model of one fuzzy-match span reported by Fuse. -/
structure MatchInfo where
  key : JSString
  value : JSString
  indices : List (Nat × Nat)

/-- Model of the `SearchResult` wrapper.  At runtime the wrapped entry is an
`EnrichedEntry` (the engine is built over enriched entries); the score is an
opaque number whose value the claims never inspect. -/
structure SearchResult where
  entry : EnrichedEntry
  score : Option Int := none
  «matches» : Option (List MatchInfo) := none

/-- Project filter stage: when `options.project` is a non-empty string
(JS truthiness), keep candidates whose lower-cased project contains the
lower-cased filter as a substring. -/
def projectStage (options : SearchOptions) (results : List SearchResult) : List SearchResult :=
  match options.project with
  | some p =>
    if p.isEmpty then results
    else results.filter (fun r => jsIncludes (jsToLower r.entry.project) (jsToLower p))
  | none => results

/-- Lower date-bound stage: when `options.from` is given, keep candidates
with `timestamp >= from.getTime()`. -/
def fromStage (options : SearchOptions) (results : List SearchResult) : List SearchResult :=
  match options.«from» with
  | some f => results.filter (fun r => f ≤ r.entry.timestamp)
  | none => results

/-- Millisecond span of one day minus one, the end-of-day offset added to the
`to` bound. -/
def END_OF_DAY_OFFSET : Int := 86399999

/-- Upper date-bound stage: when `options.to` is given, keep candidates with
`timestamp <= to.getTime() + 86399999` (inclusive of the whole `to` day). -/
def toStage (options : SearchOptions) (results : List SearchResult) : List SearchResult :=
  match options.«to» with
  | some t => results.filter (fun r => r.entry.timestamp ≤ t + END_OF_DAY_OFFSET)
  | none => results

/-- Slash-command stage: unless `options.includeSlashCommands`, drop
candidates whose trimmed display starts with a slash. -/
def slashStage (options : SearchOptions) (results : List SearchResult) : List SearchResult :=
  if options.includeSlashCommands then results
  else results.filter (fun r => !(jsStartsWithChar (jsTrim r.entry.display) '/'))

/-- Normalized deduplication key of a candidate: `display.trim().toLowerCase()`. -/
def dedupKey (r : SearchResult) : JSString := jsToLower (jsTrim r.entry.display)

/-- The `seen`-set deduplication loop of the unique filter. -/
def dedupGo (seen : List JSString) : List SearchResult → List SearchResult
  | [] => []
  | r :: rs =>
    if dedupKey r ∈ seen then dedupGo seen rs
    else r :: dedupGo (dedupKey r :: seen) rs

/-- Deduplicate by normalized key, keeping the first occurrence of each key. -/
def dedupByKey (results : List SearchResult) : List SearchResult := dedupGo [] results

/-- Unique stage: deduplicate when `options.unique` is set. -/
def uniqueStage (options : SearchOptions) (results : List SearchResult) : List SearchResult :=
  if options.unique then dedupByKey results else results

/-- Model of `HistorySearchEngine.applyFilters`: the five filter stages in
source order. -/
def applyFilters (results : List SearchResult) (options : SearchOptions) : List SearchResult :=
  uniqueStage options (slashStage options (toStage options (fromStage options (projectStage options results))))

/-- Model of the `HistorySearchEngine`: the stored entry collection and an
abstract query function standing for the Fuse index built at construction. -/
structure HistorySearchEngine where
  entries : List EnrichedEntry
  fuse : JSString → List SearchResult

/-- The candidate list of the match stage: the Fuse results for a non-empty
query (JS truthiness), otherwise every stored entry wrapped as a result. -/
def baseResults (engine : HistorySearchEngine) (options : SearchOptions) : List SearchResult :=
  match options.query with
  | some q =>
    if q.isEmpty then engine.entries.map (fun e => { entry := e })
    else engine.fuse q
  | none => engine.entries.map (fun e => { entry := e })

/-- Model of `HistorySearchEngine.search`: match stage, filters, then the
limit step — `if (options.limit)` is a JS truthiness test, so a limit of `0`
is treated as unset and performs no truncation. -/
def search (engine : HistorySearchEngine) (options : SearchOptions) : List SearchResult :=
  let results := baseResults engine options
  let filtered := applyFilters results options
  match options.limit with
  | some l => if l == 0 then filtered else filtered.take l
  | none => filtered

/-! ## Multi-client aggregation (`src/core/parser.ts`, `parseMultiClientHistory`) -/

def opencodeName : JSString := "opencode".toList
def claudecodeName : JSString := "claudecode".toList
def codexName : JSString := "codex".toList
def geminiName : JSString := "gemini".toList
def openclawName : JSString := "openclaw".toList

/-- Whether a client adapter runs: always when no `clients` list was given,
otherwise exactly when the list contains the client's name. -/
def includedClient (clients : Option (List JSString)) (name : JSString) : Bool :=
  match clients with
  | none => true
  | some cs => cs.contains name

/-- Entries contributed by one adapter: its list on success, nothing when the
adapter was excluded or threw (errors are swallowed, the aggregate goes on). -/
def adapterEntries (included : Bool) (outcome : Except Unit (List HistoryEntry)) : List HistoryEntry :=
  if included then
    match outcome with
    | Except.ok l => l
    | Except.error _ => []
  else []

/-- Descending-timestamp comparator order of the final sort
(`(a, b) => b.timestamp - a.timestamp`). -/
def tsGE (a b : HistoryEntry) : Prop := b.timestamp ≤ a.timestamp

instance : DecidableRel tsGE := fun a b => inferInstanceAs (Decidable (b.timestamp ≤ a.timestamp))

instance : IsTotal HistoryEntry tsGE := ⟨fun a b => le_total b.timestamp a.timestamp⟩

instance : IsTrans HistoryEntry tsGE := ⟨fun _ _ _ h1 h2 => le_trans h2 h1⟩

/-- Model of `Array.prototype.sort` with the descending-timestamp comparator:
a stable sort (ECMAScript guarantees sort stability). -/
def sortByTimestampDesc (l : List HistoryEntry) : List HistoryEntry := l.insertionSort tsGE

/-- The concatenation of all adapters' contributions in source enumeration
order (opencode, claudecode, codex, gemini, openclaw).  The opencode adapter
returns enriched entries; the declared element type of the aggregate is
`HistoryEntry`, so they enter as their underlying entries (the runtime client
tag lies outside the declared type and outside every claim). -/
def allClientEntries (clients : Option (List JSString))
    (opencode : Except Unit (List EnrichedEntry))
    (claudecode codex gemini openclaw : Except Unit (List HistoryEntry)) : List HistoryEntry :=
  adapterEntries (includedClient clients opencodeName) (opencode.map (List.map EnrichedEntry.toHistoryEntry))
    ++ adapterEntries (includedClient clients claudecodeName) claudecode
    ++ adapterEntries (includedClient clients codexName) codex
    ++ adapterEntries (includedClient clients geminiName) gemini
    ++ adapterEntries (includedClient clients openclawName) openclaw

/-- Model of `parseMultiClientHistory`: concatenate the adapters'
contributions, then sort by timestamp descending. -/
def parseMultiClientHistory (clients : Option (List JSString))
    (opencode : Except Unit (List EnrichedEntry))
    (claudecode codex gemini openclaw : Except Unit (List HistoryEntry)) : List HistoryEntry :=
  sortByTimestampDesc (allClientEntries clients opencode claudecode codex gemini openclaw)

/-! ## Specification-side descriptions used by refinement claims -/

/-- Specification-side description of the uniqueness filter, following the
claim's words: keep the first occurrence of each normalized key and drop all
later occurrences of that key. -/
def keepFirsts : List SearchResult → List SearchResult
  | [] => []
  | r :: rs => r :: keepFirsts (rs.filter (fun x => !(dedupKey x == dedupKey r)))
termination_by l => l.length
decreasing_by
  simp only [List.length_cons]
  exact Nat.lt_succ_of_le (List.length_filter_le _ rs)

/-! ## Basic lemmas about the string model -/

lemma jsTrimStart_head_not_ws {s : JSString} {c : Char} {rest : JSString}
    (h : jsTrimStart s = c :: rest) : c.isWhitespace = false := by
  induction s with
  | nil => simp [jsTrimStart] at h
  | cons d ds ih =>
    by_cases hd : d.isWhitespace
    · exact ih (by simpa [jsTrimStart, List.dropWhile_cons, hd] using h)
    · simp [jsTrimStart, List.dropWhile_cons, hd] at h
      rcases h with ⟨h1, _⟩
      subst h1
      simpa using hd

lemma jsTrimEnd_cons_not_ws {c : Char} (hc : c.isWhitespace = false) (l : JSString) :
    ∃ l', jsTrimEnd (c :: l) = c :: l' := by
  unfold jsTrimEnd
  rw [List.reverse_cons, List.dropWhile_append]
  by_cases h : (List.dropWhile Char.isWhitespace l.reverse).isEmpty
  · refine ⟨[], ?_⟩
    simp [h, List.dropWhile_cons, hc]
  · refine ⟨(List.dropWhile Char.isWhitespace l.reverse).reverse, ?_⟩
    simp [h]

/-- The slash test of the search filter (`display.trim().startsWith('/')`)
agrees with the enrichment test (`display.trimStart().startsWith('/')`). -/
lemma jsStartsWithChar_trim_eq (s : JSString) (ch : Char) :
    jsStartsWithChar (jsTrim s) ch = jsStartsWithChar (jsTrimStart s) ch := by
  unfold jsTrim
  cases h : jsTrimStart s with
  | nil => simp [jsTrimEnd]
  | cons c rest =>
    obtain ⟨l', hl'⟩ := jsTrimEnd_cons_not_ws (jsTrimStart_head_not_ws h) rest
    rw [hl']
    simp [jsStartsWithChar]

/-! ## Lemmas about `parseEntry` and `truncateDisplay` -/

lemma parseEntry_some {l : RawLine} {n : Nat} {en : EnrichedEntry}
    (h : parseEntry l n = some en) :
    en._lineNumber = n ∧ en._truncatedDisplay = truncateDisplay en.display ∧
      en._isSlashCommand = isSlashCommand en.display ∧
      l.json.bind safeParseHistoryEntry = some en.toHistoryEntry := by
  unfold parseEntry at h
  split at h
  · exact absurd h (by simp)
  · rename_i j hj
    split at h
    · exact absurd h (by simp)
    · rename_i e he
      simp only [Option.some.injEq] at h
      subst h
      refine ⟨rfl, rfl, rfl, ?_⟩
      rw [hj]
      simpa using he

lemma parseEntry_isSome (l : RawLine) (n : Nat) :
    (parseEntry l n).isSome = lineValid l := by
  unfold parseEntry lineValid
  split
  · rename_i hj
    rw [hj]
    rfl
  · rename_i j hj
    rw [hj]
    split
    · rename_i he
      simp [he]
    · rename_i e he
      simp [he]

lemma truncateDisplay_length_le (d : JSString) :
    (truncateDisplay d).length ≤ MAX_DISPLAY_LENGTH := by
  unfold truncateDisplay
  split
  · assumption
  · rename_i hlen
    simp only [List.length_append, List.length_take, List.length_cons, List.length_nil]
    have : ¬ d.length ≤ MAX_DISPLAY_LENGTH := hlen
    simp only [MAX_DISPLAY_LENGTH] at *
    omega

lemma truncateDisplay_long {d : JSString} (h : MAX_DISPLAY_LENGTH < d.length) :
    (truncateDisplay d).length = MAX_DISPLAY_LENGTH ∧
      ['.', '.', '.'] <:+ truncateDisplay d := by
  unfold truncateDisplay
  rw [if_neg (by omega)]
  constructor
  · simp only [List.length_append, List.length_take, List.length_cons, List.length_nil]
    simp only [MAX_DISPLAY_LENGTH] at *
    omega
  · exact List.suffix_append _ _

/-- Claim C3 — for every validated entry, `_truncatedDisplay` has length at
most 500 code units; whenever the display is longer than 500, the truncated
display ends with the literal three-dot marker and has length exactly 500. -/
theorem truncation_invariant (line : RawLine) (n : Nat) (en : EnrichedEntry)
    (h : parseEntry line n = some en) :
    en._truncatedDisplay.length ≤ 500 ∧
      (500 < en.display.length →
        en._truncatedDisplay.length = 500 ∧ ['.', '.', '.'] <:+ en._truncatedDisplay) := by
  obtain ⟨-, htr, -, -⟩ := parseEntry_some h
  rw [htr]
  refine ⟨truncateDisplay_length_le en.display, fun hlong => ?_⟩
  exact truncateDisplay_long (d := en.display) (by simpa [MAX_DISPLAY_LENGTH] using hlong)

def sampleShortJson : Json := Json.obj
  [ (displayKey, Json.str "hello".toList),
    (pastedContentsKey, Json.obj []),
    (timestampKey, Json.num 1500000000000),
    (projectKey, Json.str "/home/user/proj".toList) ]

def sampleShortLine : RawLine := ⟨"sample".toList, some sampleShortJson⟩

def sampleShortEntry : EnrichedEntry :=
  { display := "hello".toList
    pastedContents := []
    timestamp := 1500000000000
    project := "/home/user/proj".toList
    sessionId := none
    _lineNumber := 7
    _truncatedDisplay := "hello".toList
    _isSlashCommand := false }

theorem truncation_invariant_witness :
    sampleShortEntry._truncatedDisplay.length ≤ 500 ∧
      (500 < sampleShortEntry.display.length →
        sampleShortEntry._truncatedDisplay.length = 500 ∧
          ['.', '.', '.'] <:+ sampleShortEntry._truncatedDisplay) :=
  truncation_invariant sampleShortLine 7 sampleShortEntry (by decide)

/-! ## Claim C8 — the `project` field -/

lemma safeParseHistoryEntry_project {fields : List (JSString × Json)} {e : HistoryEntry}
    (h : safeParseHistoryEntry (Json.obj fields) = some e) :
    lookupField fields projectKey = some (Json.str e.project) := by
  simp only [safeParseHistoryEntry] at h
  split at h
  · rename_i d pcJson ts pr hd hpc hts hpr
    split at h
    · rename_i pcs hpcs
      split at h
      · split at h
        · simp only [Option.some.injEq] at h
          subst h
          exact hpr
        · split at h
          · simp only [Option.some.injEq] at h
            subst h
            exact hpr
          · exact absurd h (by simp)
        · exact absurd h (by simp)
      · exact absurd h (by simp)
    · exact absurd h (by simp)
  · exact absurd h (by simp)

def emptyProjectFields : List (JSString × Json) :=
  [ (displayKey, Json.str "hello".toList),
    (pastedContentsKey, Json.obj []),
    (timestampKey, Json.num 1500000000000),
    (projectKey, Json.str []) ]

def emptyProjectLine : RawLine := ⟨"line".toList, some (Json.obj emptyProjectFields)⟩

def emptyProjectEntry : EnrichedEntry :=
  { display := "hello".toList
    pastedContents := []
    timestamp := 1500000000000
    project := []
    sessionId := none
    _lineNumber := 1
    _truncatedDisplay := "hello".toList
    _isSlashCommand := false }

/-- Counterexample to claim C8 as stated: a record whose `project` is the
empty string is accepted by the validator (`z.string()` places no lower bound
on the length), so `parseEntry` returns a non-null entry whose `project` has
length 0, not length at least 1. -/
theorem project_empty_counterexample :
    parseEntry emptyProjectLine 1 = some emptyProjectEntry ∧
      emptyProjectEntry.project.length = 0 := by
  constructor
  · decide
  · rfl

/-- Claim C8, amended — the schema requires `project` to be present with a
string value, which is carried through verbatim to the returned entry; it
does not require the string to be non-empty. -/
theorem project_string_amended (l : RawLine) (n : Nat) (en : EnrichedEntry)
    (fields : List (JSString × Json)) (hj : l.json = some (Json.obj fields))
    (h : parseEntry l n = some en) :
    lookupField fields projectKey = some (Json.str en.project) := by
  obtain ⟨-, -, -, hbind⟩ := parseEntry_some h
  rw [hj] at hbind
  rw [Option.some_bind] at hbind
  exact safeParseHistoryEntry_project hbind

theorem project_string_witness :
    lookupField emptyProjectFields projectKey = some (Json.str emptyProjectEntry.project) :=
  project_string_amended emptyProjectLine 1 emptyProjectEntry emptyProjectFields rfl (by decide)

/-! ## Lemmas about the JSONL ingestion loop -/

lemma parseEntry_eq_none_of_invalid {l : RawLine} (h : lineValid l = false) (n : Nat) :
    parseEntry l n = none := by
  have := parseEntry_isSome l n
  rw [h] at this
  exact Option.not_isSome_iff_eq_none.mp (by simp [this])

lemma parseLines_nil (n : Nat) : parseLines n [] = ⟨[], []⟩ := rfl

lemma parseLines_cons (n : Nat) (l : RawLine) (ls : List RawLine) :
    parseLines n (l :: ls) =
      if isBlankLine l then parseLines (n + 1) ls
      else
        match parseEntry l n with
        | some e => ⟨e :: (parseLines (n + 1) ls).entries, (parseLines (n + 1) ls).warnings⟩
        | none => ⟨(parseLines (n + 1) ls).entries, n :: (parseLines (n + 1) ls).warnings⟩ := rfl

lemma parseLines_cons_blank {l : RawLine} (h : isBlankLine l = true) (n : Nat)
    (ls : List RawLine) : parseLines n (l :: ls) = parseLines (n + 1) ls := by
  rw [parseLines_cons, if_pos h]

lemma parseLines_cons_entry {l : RawLine} {n : Nat} {e : EnrichedEntry}
    (h : isBlankLine l = false) (he : parseEntry l n = some e) (ls : List RawLine) :
    parseLines n (l :: ls) =
      ⟨e :: (parseLines (n + 1) ls).entries, (parseLines (n + 1) ls).warnings⟩ := by
  rw [parseLines_cons, if_neg (by simp [h]), he]

lemma parseLines_cons_warn {l : RawLine} {n : Nat}
    (h : isBlankLine l = false) (he : parseEntry l n = none) (ls : List RawLine) :
    parseLines n (l :: ls) =
      ⟨(parseLines (n + 1) ls).entries, n :: (parseLines (n + 1) ls).warnings⟩ := by
  rw [parseLines_cons, if_neg (by simp [h]), he]

lemma parseLines_append (a b : List RawLine) (n : Nat) :
    parseLines n (a ++ b) =
      ⟨(parseLines n a).entries ++ (parseLines (n + a.length) b).entries,
       (parseLines n a).warnings ++ (parseLines (n + a.length) b).warnings⟩ := by
  induction a generalizing n with
  | nil => simp [parseLines_nil]
  | cons l ls ih =>
    have harith : n + 1 + ls.length = n + (l :: ls).length := by simp; omega
    by_cases hb : isBlankLine l
    · rw [List.cons_append, parseLines_cons_blank hb, parseLines_cons_blank hb, ih, harith]
    · have hb' : isBlankLine l = false := by simpa using hb
      cases he : parseEntry l n with
      | some e =>
        rw [List.cons_append, parseLines_cons_entry hb' he, parseLines_cons_entry hb' he,
          ih, harith]
        simp
      | none =>
        rw [List.cons_append, parseLines_cons_warn hb' he, parseLines_cons_warn hb' he,
          ih, harith]
        simp

lemma parseLines_entries_length_of_valid (ls : List RawLine) (n : Nat)
    (h : ∀ x ∈ ls, isBlankLine x = false ∧ lineValid x = true) :
    (parseLines n ls).entries.length = ls.length := by
  induction ls generalizing n with
  | nil => rfl
  | cons l ls ih =>
    obtain ⟨hb, hv⟩ := h l (List.mem_cons_self l ls)
    have hrest := ih (n + 1) (fun x hx => h x (List.mem_cons_of_mem l hx))
    have : (parseEntry l n).isSome = true := by rw [parseEntry_isSome, hv]
    obtain ⟨e, he⟩ := Option.isSome_iff_exists.mp this
    rw [parseLines_cons_entry hb he]
    simpa using hrest

/-- Claim C7 — `parseEntry` is total: a line that fails `JSON.parse` or the
schema check yields `null` (with only a diagnostic log, never an exception);
a successful parse carries `_lineNumber` equal to the ordinal passed in; and
a file with one malformed line among `k` valid lines yields exactly `k`
entries, the read not being aborted. -/
theorem parse_skip_resilience :
    (∀ (l : RawLine) (n : Nat), l.json = none → parseEntry l n = none) ∧
    (∀ (l : RawLine) (j : Json) (n : Nat), l.json = some j →
      safeParseHistoryEntry j = none → parseEntry l n = none) ∧
    (∀ (l : RawLine) (n : Nat) (en : EnrichedEntry),
      parseEntry l n = some en → en._lineNumber = n) ∧
    (∀ (pre post : List RawLine) (bad : RawLine),
      (∀ x ∈ pre, isBlankLine x = false ∧ lineValid x = true) →
      (∀ x ∈ post, isBlankLine x = false ∧ lineValid x = true) →
      isBlankLine bad = false → lineValid bad = false →
      (parseHistoryJsonl (pre ++ bad :: post)).entries.length = pre.length + post.length) := by
  refine ⟨?_, ?_, ?_, ?_⟩
  · intro l n hj
    have : lineValid l = false := by simp [lineValid, hj]
    exact parseEntry_eq_none_of_invalid this n
  · intro l j n hj hs
    have : lineValid l = false := by simp [lineValid, hj, hs]
    exact parseEntry_eq_none_of_invalid this n
  · intro l n en h
    exact (parseEntry_some h).1
  · intro pre post bad hpre hpost hbadb hbadv
    unfold parseHistoryJsonl
    rw [parseLines_append pre (bad :: post) 1]
    rw [parseLines_cons_warn hbadb (parseEntry_eq_none_of_invalid hbadv (1 + pre.length)) post]
    simp only [List.length_append]
    rw [parseLines_entries_length_of_valid pre 1 hpre,
      parseLines_entries_length_of_valid post (1 + pre.length + 1) hpost]

def validLineA : RawLine := sampleShortLine

def badLine : RawLine := ⟨"not json".toList, none⟩

theorem parse_skip_resilience_witness :
    parseEntry badLine 1 = none ∧
    parseEntry ⟨"3".toList, some (Json.num 3)⟩ 1 = none ∧
    sampleShortEntry._lineNumber = 7 ∧
    (parseHistoryJsonl [validLineA, badLine, validLineA]).entries.length = 2 := by
  refine ⟨?_, ?_, ?_, ?_⟩
  · exact parse_skip_resilience.1 badLine 1 rfl
  · exact parse_skip_resilience.2.1 ⟨"3".toList, some (Json.num 3)⟩ (Json.num 3) 1 rfl rfl
  · exact parse_skip_resilience.2.2.1 sampleShortLine 7 sampleShortEntry (by decide)
  · exact parse_skip_resilience.2.2.2 [validLineA] [validLineA] badLine
      (by intro x hx; simp only [List.mem_singleton] at hx; subst hx; constructor <;> decide)
      (by intro x hx; simp only [List.mem_singleton] at hx; subst hx; constructor <;> decide)
      (by decide) (by decide)

/-! ## Claim C10 — line numbers carried by ingested entries -/

lemma parseLines_entries_enum (ls : List RawLine) (n : Nat) :
    (parseLines n ls).entries =
      (List.enumFrom n ls).filterMap
        (fun p => if isBlankLine p.2 then none else parseEntry p.2 p.1) := by
  induction ls generalizing n with
  | nil => rfl
  | cons l ls ih =>
    have henum : List.enumFrom n (l :: ls) = (n, l) :: List.enumFrom (n + 1) ls := rfl
    rw [henum, List.filterMap_cons]
    by_cases hb : isBlankLine l
    · rw [parseLines_cons_blank hb]
      simp only [hb, if_pos]
      exact ih (n + 1)
    · have hb' : isBlankLine l = false := by simpa using hb
      cases he : parseEntry l n with
      | some e =>
        rw [parseLines_cons_entry hb' he]
        simp only [hb', Bool.false_eq_true, if_neg, he]
        simp [ih (n + 1)]
      | none =>
        rw [parseLines_cons_warn hb' he]
        simp only [hb', Bool.false_eq_true, if_neg, he]
        exact ih (n + 1)

lemma parseLines_entries_lineNumber_ge {ls : List RawLine} {n : Nat} {e : EnrichedEntry}
    (h : e ∈ (parseLines n ls).entries) : n ≤ e._lineNumber := by
  induction ls generalizing n with
  | nil => simp [parseLines_nil] at h
  | cons l ls ih =>
    by_cases hb : isBlankLine l
    · rw [parseLines_cons_blank hb] at h
      exact Nat.le_of_succ_le (ih h)
    · have hb' : isBlankLine l = false := by simpa using hb
      cases he : parseEntry l n with
      | some e' =>
        rw [parseLines_cons_entry hb' he] at h
        rcases List.mem_cons.mp h with heq | hmem
        · subst heq
          exact le_of_eq ((parseEntry_some he).1).symm
        · exact Nat.le_of_succ_le (ih hmem)
      | none =>
        rw [parseLines_cons_warn hb' he] at h
        exact Nat.le_of_succ_le (ih h)

lemma parseLines_warnings_ge {ls : List RawLine} {n : Nat} {w : Nat}
    (h : w ∈ (parseLines n ls).warnings) : n ≤ w := by
  induction ls generalizing n with
  | nil => simp [parseLines_nil] at h
  | cons l ls ih =>
    by_cases hb : isBlankLine l
    · rw [parseLines_cons_blank hb] at h
      exact Nat.le_of_succ_le (ih h)
    · have hb' : isBlankLine l = false := by simpa using hb
      cases he : parseEntry l n with
      | some e' =>
        rw [parseLines_cons_entry hb' he] at h
        exact Nat.le_of_succ_le (ih h)
      | none =>
        rw [parseLines_cons_warn hb' he] at h
        rcases List.mem_cons.mp h with heq | hmem
        · exact le_of_eq heq.symm
        · exact Nat.le_of_succ_le (ih hmem)

lemma parseLines_lineNumbers_pairwise (ls : List RawLine) (n : Nat) :
    List.Pairwise (· < ·) ((parseLines n ls).entries.map EnrichedEntry._lineNumber) := by
  induction ls generalizing n with
  | nil => simp [parseLines_nil]
  | cons l ls ih =>
    by_cases hb : isBlankLine l
    · rw [parseLines_cons_blank hb]
      exact ih (n + 1)
    · have hb' : isBlankLine l = false := by simpa using hb
      cases he : parseEntry l n with
      | some e =>
        rw [parseLines_cons_entry hb' he]
        simp only [List.map_cons, List.pairwise_cons]
        refine ⟨?_, ih (n + 1)⟩
        intro x hx
        rcases List.mem_map.mp hx with ⟨e', he', rfl⟩
        rw [(parseEntry_some he).1]
        exact Nat.lt_of_succ_le (parseLines_entries_lineNumber_ge he')
      | none =>
        rw [parseLines_cons_warn hb' he]
        exact ih (n + 1)

lemma parseLines_blank_position {ls : List RawLine} {n i : Nat} (h : i < ls.length)
    (hb : isBlankLine (ls.get ⟨i, h⟩) = true) :
    (n + i) ∉ (parseLines n ls).entries.map EnrichedEntry._lineNumber ∧
      (n + i) ∉ (parseLines n ls).warnings := by
  induction ls generalizing n i with
  | nil => exact absurd h (by simp)
  | cons l ls ih =>
    cases i with
    | zero =>
      have hbl : isBlankLine l = true := hb
      rw [parseLines_cons_blank hbl]
      constructor
      · intro hmem
        rcases List.mem_map.mp hmem with ⟨e', he', heq⟩
        have := parseLines_entries_lineNumber_ge he'
        omega
      · intro hmem
        have := parseLines_warnings_ge hmem
        omega
    | succ i =>
      have h' : i < ls.length := by simpa using h
      have hb'' : isBlankLine (ls.get ⟨i, h'⟩) = true := hb
      have harith : n + (i + 1) = (n + 1) + i := by omega
      by_cases hbl : isBlankLine l
      · rw [parseLines_cons_blank hbl, harith]
        exact ih h' hb''
      · have hbl' : isBlankLine l = false := by simpa using hbl
        cases he : parseEntry l n with
        | some e =>
          rw [parseLines_cons_entry hbl' he]
          have hrest := ih (n := n + 1) h' hb''
          constructor
          · simp only [List.map_cons, List.mem_cons]
            rintro (heq | hmem)
            · rw [(parseEntry_some he).1] at heq
              omega
            · rw [harith] at hmem
              exact hrest.1 hmem
          · intro hmem
            rw [harith] at hmem
            exact hrest.2 hmem
        | none =>
          rw [parseLines_cons_warn hbl' he]
          have hrest := ih (n := n + 1) h' hb''
          constructor
          · intro hmem
            rw [harith] at hmem
            exact hrest.1 hmem
          · simp only [List.mem_cons]
            rintro (heq | hmem)
            · omega
            · rw [harith] at hmem
              exact hrest.2 hmem

/-- Claim C10 — each returned entry carries `_lineNumber` equal to the 1-based
physical position of its source line: the entry list is the filter-map of the
1-based enumeration of the lines (blank lines skipped before parsing, invalid
lines skipped by `parseEntry`), the carried line numbers are strictly
increasing, and a blank line's position appears neither among the entries'
line numbers nor among the diagnostics. -/
theorem line_number_invariant (lines : List RawLine) :
    (parseHistoryJsonl lines).entries =
      (List.enumFrom 1 lines).filterMap
        (fun p => if isBlankLine p.2 then none else parseEntry p.2 p.1) ∧
    List.Pairwise (· < ·)
      ((parseHistoryJsonl lines).entries.map EnrichedEntry._lineNumber) ∧
    (∀ (i : Nat) (h : i < lines.length), isBlankLine (lines.get ⟨i, h⟩) = true →
      (1 + i) ∉ (parseHistoryJsonl lines).entries.map EnrichedEntry._lineNumber ∧
        (1 + i) ∉ (parseHistoryJsonl lines).warnings) := by
  refine ⟨parseLines_entries_enum lines 1, parseLines_lineNumbers_pairwise lines 1, ?_⟩
  intro i h hb
  exact parseLines_blank_position h hb

def blankLine : RawLine := ⟨"  ".toList, none⟩

theorem line_number_invariant_witness :
    (2 : Nat) ∉ (parseHistoryJsonl [validLineA, blankLine, validLineA]).entries.map
        EnrichedEntry._lineNumber ∧
      (2 : Nat) ∉ (parseHistoryJsonl [validLineA, blankLine, validLineA]).warnings :=
  (line_number_invariant [validLineA, blankLine, validLineA]).2.2 1 (by decide) (by decide)

/-! ## Sublist structure of the filter pipeline -/

lemma dedupGo_sublist (seen : List JSString) (l : List SearchResult) :
    (dedupGo seen l).Sublist l := by
  induction l generalizing seen with
  | nil => simp [dedupGo]
  | cons r rs ih =>
    unfold dedupGo
    split
    · exact (ih seen).trans (List.sublist_cons_self r rs)
    · exact (ih (dedupKey r :: seen)).cons₂ r

lemma projectStage_sublist (o : SearchOptions) (l : List SearchResult) :
    (projectStage o l).Sublist l := by
  unfold projectStage
  split
  · split
    · exact List.Sublist.refl l
    · exact List.filter_sublist l
  · exact List.Sublist.refl l

lemma fromStage_sublist (o : SearchOptions) (l : List SearchResult) :
    (fromStage o l).Sublist l := by
  unfold fromStage
  split
  · exact List.filter_sublist l
  · exact List.Sublist.refl l

lemma toStage_sublist (o : SearchOptions) (l : List SearchResult) :
    (toStage o l).Sublist l := by
  unfold toStage
  split
  · exact List.filter_sublist l
  · exact List.Sublist.refl l

lemma slashStage_sublist (o : SearchOptions) (l : List SearchResult) :
    (slashStage o l).Sublist l := by
  unfold slashStage
  split
  · exact List.Sublist.refl l
  · exact List.filter_sublist l

lemma uniqueStage_sublist (o : SearchOptions) (l : List SearchResult) :
    (uniqueStage o l).Sublist l := by
  unfold uniqueStage
  split
  · exact dedupGo_sublist [] l
  · exact List.Sublist.refl l

lemma applyFilters_sublist (l : List SearchResult) (o : SearchOptions) :
    (applyFilters l o).Sublist l :=
  ((((uniqueStage_sublist o _).trans (slashStage_sublist o _)).trans
    (toStage_sublist o _)).trans (fromStage_sublist o _)).trans (projectStage_sublist o l)

lemma search_sublist_dateStages (e : HistorySearchEngine) (o : SearchOptions) :
    (search e o).Sublist (toStage o (fromStage o (projectStage o (baseResults e o)))) := by
  have hfil : (applyFilters (baseResults e o) o).Sublist
      (toStage o (fromStage o (projectStage o (baseResults e o)))) :=
    (uniqueStage_sublist o _).trans (slashStage_sublist o _)
  unfold search
  split
  · split
    · exact hfil
    · exact (List.take_sublist _ _).trans hfil
  · exact hfil

/-! ## Claim C1 — the result limit -/

def c1Entry : EnrichedEntry :=
  { display := "alpha".toList
    pastedContents := []
    timestamp := 1500000000000
    project := "/home/user/proj".toList
    sessionId := none
    _lineNumber := 1
    _truncatedDisplay := "alpha".toList
    _isSlashCommand := false }

def c1Engine : HistorySearchEngine := { entries := [c1Entry], fuse := fun _ => [] }

/-- Counterexample to claim C1 as stated: with `options.limit = 0` the
JavaScript truthiness test `if (options.limit)` skips the truncation, so a
one-entry collection yields one result, not at most zero. -/
theorem limit_zero_counterexample :
    (search c1Engine { limit := some 0 }).length = 1 := by decide

/-- Claim C1, amended — for every limit `L >= 1`, `search` returns the first
`L` elements of the fully filtered list (truncation after all filter stages,
order preserved), hence at most `L` results; a limit of `0` is falsy in
JavaScript and performs no truncation. -/
theorem limit_truncation_amended (e : HistorySearchEngine) (o : SearchOptions)
    (L : Nat) (hL : o.limit = some L) (hpos : 1 ≤ L) :
    search e o = (applyFilters (baseResults e o) o).take L ∧
      (search e o).length ≤ L := by
  have hstep : search e o =
      if L == 0 then applyFilters (baseResults e o) o
      else (applyFilters (baseResults e o) o).take L := by
    unfold search
    rw [hL]
  have hs : search e o = (applyFilters (baseResults e o) o).take L := by
    rw [hstep, if_neg (by simp; omega)]
  exact ⟨hs, by rw [hs]; simp⟩

theorem limit_truncation_witness :
    search c1Engine { limit := some 1 } =
        (applyFilters (baseResults c1Engine { limit := some 1 }) { limit := some 1 }).take 1 ∧
      (search c1Engine { limit := some 1 }).length ≤ 1 :=
  limit_truncation_amended c1Engine { limit := some 1 } 1 rfl (by decide)

/-! ## Claims C2 and C5 — the date-range filter -/

lemma mem_fromStage {o : SearchOptions} {l : List SearchResult} {r : SearchResult}
    {f : Int} (hf : o.«from» = some f) :
    r ∈ fromStage o l ↔ r ∈ l ∧ f ≤ r.entry.timestamp := by
  unfold fromStage
  rw [hf]
  simp [List.mem_filter]

lemma mem_toStage {o : SearchOptions} {l : List SearchResult} {r : SearchResult}
    {t : Int} (ht : o.«to» = some t) :
    r ∈ toStage o l ↔ r ∈ l ∧ r.entry.timestamp ≤ t + END_OF_DAY_OFFSET := by
  unfold toStage
  rw [ht]
  simp [List.mem_filter]

/-- Claim C5 — with `options.from` given, a candidate survives the lower
date-bound stage exactly when its timestamp is at least `from.getTime()`;
with `options.to` given, it survives the upper stage exactly when its
timestamp is at most `to.getTime() + 86399999`; with both given, it survives
both stages exactly when the timestamp lies in the closed range. -/
theorem date_filter_bounds (o : SearchOptions) (l : List SearchResult)
    (r : SearchResult) (f t : Int) :
    (o.«from» = some f → (r ∈ fromStage o l ↔ r ∈ l ∧ f ≤ r.entry.timestamp)) ∧
    (o.«to» = some t → (r ∈ toStage o l ↔ r ∈ l ∧ r.entry.timestamp ≤ t + 86399999)) ∧
    (o.«from» = some f → o.«to» = some t →
      (r ∈ toStage o (fromStage o l) ↔
        r ∈ l ∧ f ≤ r.entry.timestamp ∧ r.entry.timestamp ≤ t + 86399999)) := by
  refine ⟨fun hf => mem_fromStage hf, fun ht => ?_, fun hf ht => ?_⟩
  · rw [mem_toStage ht]
    rfl
  · rw [mem_toStage ht, mem_fromStage hf]
    unfold END_OF_DAY_OFFSET
    tauto

def c2Result : SearchResult := { entry := c1Entry }

theorem date_filter_bounds_witness :
    ({ «from» := some 1500000000000 } : SearchOptions).«from» = some 1500000000000 ∧
      (c2Result ∈ fromStage { «from» := some 1500000000000 } [c2Result] ↔
        c2Result ∈ [c2Result] ∧ (1500000000000 : Int) ≤ c2Result.entry.timestamp) :=
  ⟨rfl, (date_filter_bounds { «from» := some 1500000000000 } [c2Result] c2Result
      1500000000000 0).1 rfl⟩

def c2Options : SearchOptions :=
  { «from» := some 1500000000000, «to» := some 1499999999999 }

/-- Counterexample to claim C2 as stated: `from` one millisecond after `to`
(`from > to`), yet the entry at the `from` instant survives both bounds
because the upper bound is extended by the end-of-day offset, so the search
returns one result, not zero. -/
theorem date_range_counterexample :
    (1499999999999 : Int) < 1500000000000 ∧
      (search c1Engine c2Options).length = 1 := by
  constructor
  · decide
  · decide

/-- Claim C2, amended — a `from`/`to` range yields zero matches whenever
`from.getTime()` exceeds `to.getTime() + 86399999` (i.e. `from` lies after
the end of the calendar day named by `to`); for `from > to` within that
offset, matches can still occur. -/
theorem date_range_disjoint_amended (e : HistorySearchEngine) (o : SearchOptions)
    (f t : Int) (hf : o.«from» = some f) (ht : o.«to» = some t)
    (hgt : t + END_OF_DAY_OFFSET < f) :
    search e o = [] := by
  rw [List.eq_nil_iff_forall_not_mem]
  intro r hr
  have hmem : r ∈ toStage o (fromStage o (projectStage o (baseResults e o))) :=
    (search_sublist_dateStages e o).mem hr
  obtain ⟨hmem2, hub⟩ := (mem_toStage ht).mp hmem
  obtain ⟨-, hlb⟩ := (mem_fromStage hf).mp hmem2
  omega

theorem date_range_disjoint_witness :
    search c1Engine { «from» := some 1500000000000, «to» := some 1400000000000 } = [] :=
  date_range_disjoint_amended c1Engine
    { «from» := some 1500000000000, «to» := some 1400000000000 }
    1500000000000 1400000000000 rfl rfl (by decide)

/-! ## Claim C4 — the uniqueness filter -/

lemma keepFirsts_nil : keepFirsts [] = [] := by
  simp [keepFirsts]

lemma keepFirsts_cons (r : SearchResult) (rs : List SearchResult) :
    keepFirsts (r :: rs) =
      r :: keepFirsts (rs.filter (fun x => !(dedupKey x == dedupKey r))) := by
  simp [keepFirsts]

lemma dedupGo_cons (seen : List JSString) (r : SearchResult) (rs : List SearchResult) :
    dedupGo seen (r :: rs) =
      if dedupKey r ∈ seen then dedupGo seen rs
      else r :: dedupGo (dedupKey r :: seen) rs := rfl

lemma dedupGo_eq_keepFirsts (l : List SearchResult) :
    ∀ seen : List JSString,
      dedupGo seen l = keepFirsts (l.filter (fun x => decide (dedupKey x ∉ seen))) := by
  induction l with
  | nil => intro seen; simp [dedupGo, keepFirsts_nil]
  | cons r rs ih =>
    intro seen
    by_cases hmem : dedupKey r ∈ seen
    · rw [dedupGo_cons, if_pos hmem, List.filter_cons, if_neg (by simp [hmem])]
      exact ih seen
    · rw [dedupGo_cons, if_neg hmem, List.filter_cons, if_pos (by simp [hmem]),
        keepFirsts_cons, List.filter_filter, ih (dedupKey r :: seen)]
      congr 1
      refine congrArg keepFirsts (List.filter_congr ?_)
      intro x _
      by_cases h1 : dedupKey x = dedupKey r <;> by_cases h2 : dedupKey x ∈ seen <;>
        simp [h1, h2, List.mem_cons]

lemma dedupGo_key_not_mem {l : List SearchResult} {seen : List JSString}
    {x : SearchResult} (hx : x ∈ dedupGo seen l) : dedupKey x ∉ seen := by
  induction l generalizing seen with
  | nil => simp [dedupGo] at hx
  | cons r rs ih =>
    rw [dedupGo_cons] at hx
    split at hx
    · exact ih hx
    · rcases List.mem_cons.mp hx with rfl | hmem
      · assumption
      · intro hc
        exact ih hmem (List.mem_cons_of_mem _ hc)

lemma dedupGo_pairwise (l : List SearchResult) (seen : List JSString) :
    List.Pairwise (fun a b => dedupKey a ≠ dedupKey b) (dedupGo seen l) := by
  induction l generalizing seen with
  | nil => simp [dedupGo]
  | cons r rs ih =>
    rw [dedupGo_cons]
    split
    · exact ih seen
    · refine List.pairwise_cons.mpr ⟨?_, ih (dedupKey r :: seen)⟩
      intro b hb heq
      exact dedupGo_key_not_mem hb (by rw [← heq]; exact List.mem_cons_self _ _)

lemma uniqueStage_of_unique {o : SearchOptions} (hu : o.unique = true)
    (l : List SearchResult) : uniqueStage o l = dedupByKey l := by
  unfold uniqueStage
  rw [hu]
  rfl

lemma search_sublist_applyFilters (e : HistorySearchEngine) (o : SearchOptions) :
    (search e o).Sublist (applyFilters (baseResults e o) o) := by
  unfold search
  split
  · split
    · exact List.Sublist.refl _
    · exact List.take_sublist _ _
  · exact List.Sublist.refl _

lemma search_eq_of_limit {e : HistorySearchEngine} {o : SearchOptions} {L : Nat}
    (hL : o.limit = some L) :
    search e o =
      if L == 0 then applyFilters (baseResults e o) o
      else (applyFilters (baseResults e o) o).take L := by
  unfold search
  rw [hL]

lemma search_eq_of_no_limit {e : HistorySearchEngine} {o : SearchOptions}
    (hL : o.limit = none) :
    search e o = applyFilters (baseResults e o) o := by
  unfold search
  rw [hL]

/-- The final limit step of `search`, factored out: truncate to `L` elements
when a non-zero (truthy) limit is present. -/
def limitStep (lim : Option Nat) (l : List SearchResult) : List SearchResult :=
  match lim with
  | some L => if L == 0 then l else l.take L
  | none => l

lemma search_eq_limitStep (e : HistorySearchEngine) (o : SearchOptions) :
    search e o = limitStep o.limit (applyFilters (baseResults e o) o) := by
  unfold search limitStep
  cases o.limit <;> rfl

lemma limitStep_length_mono {l1 l2 : List SearchResult} (h : l1.length ≤ l2.length)
    (lim : Option Nat) : (limitStep lim l1).length ≤ (limitStep lim l2).length := by
  cases lim with
  | none => exact h
  | some L =>
    by_cases hz : (L == 0) = true
    · simp only [limitStep, hz, if_pos]
      exact h
    · simp only [limitStep, hz, Bool.false_eq_true, if_false, List.length_take]
      omega

/-- Claim C4 — the uniqueness stage equals the keep-first-occurrence
description (drop every later occurrence of a normalized key), so with
`options.unique` set no two search results share `display.trim().toLowerCase()`
and the result count never exceeds the same search without `unique`. -/
theorem unique_dedup_spec (e : HistorySearchEngine) (o : SearchOptions)
    (hu : o.unique = true) :
    (∀ l : List SearchResult, dedupByKey l = keepFirsts l) ∧
    List.Pairwise (fun a b => dedupKey a ≠ dedupKey b) (search e o) ∧
    (search e o).length ≤ (search e { o with unique := false }).length := by
  have hkeep : ∀ l : List SearchResult, dedupByKey l = keepFirsts l := by
    intro l
    unfold dedupByKey
    rw [dedupGo_eq_keepFirsts l []]
    congr 1
    apply List.filter_eq_self.mpr
    intro x _
    simp
  have hap : applyFilters (baseResults e o) o =
      dedupByKey (slashStage o (toStage o (fromStage o (projectStage o (baseResults e o))))) := by
    unfold applyFilters
    rw [uniqueStage_of_unique hu]
  refine ⟨hkeep, ?_, ?_⟩
  · have hsub : (search e o).Sublist
        (dedupByKey (slashStage o (toStage o (fromStage o (projectStage o (baseResults e o)))))) := by
      have h := search_sublist_applyFilters e o
      rwa [hap] at h
    exact List.Pairwise.sublist hsub (dedupGo_pairwise _ [])
  · have hbase : baseResults e { o with unique := false } = baseResults e o := rfl
    have hapF : applyFilters (baseResults e o) { o with unique := false } =
        slashStage o (toStage o (fromStage o (projectStage o (baseResults e o)))) := rfl
    have hlim : ({ o with unique := false } : SearchOptions).limit = o.limit := rfl
    have hlen : (dedupByKey (slashStage o (toStage o (fromStage o
        (projectStage o (baseResults e o)))))).length ≤
        (slashStage o (toStage o (fromStage o (projectStage o (baseResults e o))))).length :=
      (dedupGo_sublist [] _).length_le
    rw [search_eq_limitStep, search_eq_limitStep, hbase, hapF, hap, hlim]
    exact limitStep_length_mono hlen o.limit

def c4Entry : EnrichedEntry :=
  { display := "Alpha".toList
    pastedContents := []
    timestamp := 1500000000001
    project := "/home/user/proj".toList
    sessionId := none
    _lineNumber := 2
    _truncatedDisplay := "Alpha".toList
    _isSlashCommand := false }

def c4Engine : HistorySearchEngine :=
  { entries := [c1Entry, c4Entry, c1Entry], fuse := fun _ => [] }

theorem unique_dedup_witness :
    (∀ l : List SearchResult, dedupByKey l = keepFirsts l) ∧
    List.Pairwise (fun a b => dedupKey a ≠ dedupKey b) (search c4Engine { unique := true }) ∧
    (search c4Engine { unique := true }).length ≤
      (search c4Engine { ({ unique := true } : SearchOptions) with unique := false }).length :=
  unique_dedup_spec c4Engine { unique := true } rfl

/-! ## Claim C6 — the slash-command filter -/

lemma slashStage_eq_isSlash {o : SearchOptions} (hinc : o.includeSlashCommands = false)
    (l : List SearchResult)
    (hl : ∀ r ∈ l, r.entry._isSlashCommand = isSlashCommand r.entry.display) :
    slashStage o l = l.filter (fun r => !r.entry._isSlashCommand) := by
  unfold slashStage
  rw [hinc]
  simp only [Bool.false_eq_true, if_false]
  apply List.filter_congr
  intro r hr
  rw [jsStartsWithChar_trim_eq, hl r hr]
  rfl

/-- Claim C6 — when the stored entries satisfy the enrichment invariant
(`_isSlashCommand` equals the trimmed-display slash test) and
`includeSlashCommands` is not set, the slash stage drops exactly the
candidates with `_isSlashCommand` true; in particular the default search
returns no slash-command entry, and allowing slash commands returns at least
as many results as the default search. -/
theorem slash_filter_spec (e : HistorySearchEngine) (o : SearchOptions)
    (hinv : ∀ en ∈ e.entries, en._isSlashCommand = isSlashCommand en.display)
    (hinc : o.includeSlashCommands = false) :
    (∀ l : List SearchResult,
      (∀ r ∈ l, r.entry._isSlashCommand = isSlashCommand r.entry.display) →
      slashStage o l = l.filter (fun r => !r.entry._isSlashCommand)) ∧
    (∀ r ∈ search e { }, r.entry._isSlashCommand = false) ∧
    (search e { }).length ≤ (search e { includeSlashCommands := true }).length := by
  have hdef : search e { } =
      (e.entries.map (fun en => ({ entry := en } : SearchResult))).filter
        (fun r => !(jsStartsWithChar (jsTrim r.entry.display) '/')) := rfl
  have hall : search e { includeSlashCommands := true } =
      e.entries.map (fun en => ({ entry := en } : SearchResult)) := rfl
  refine ⟨fun l hl => slashStage_eq_isSlash hinc l hl, ?_, ?_⟩
  · intro r hr
    rw [hdef] at hr
    obtain ⟨hmem, hpred⟩ := List.mem_filter.mp hr
    obtain ⟨en, hen, rfl⟩ := List.mem_map.mp hmem
    have hslash : jsStartsWithChar (jsTrim en.display) '/' = false := by
      simpa using hpred
    rw [jsStartsWithChar_trim_eq] at hslash
    rw [hinv en hen]
    exact hslash
  · rw [hdef, hall]
    exact (List.length_filter_le _ _).trans (by rw [List.length_map])

def c6SlashEntry : EnrichedEntry :=
  { display := " /help".toList
    pastedContents := []
    timestamp := 1500000000002
    project := "/home/user/proj".toList
    sessionId := none
    _lineNumber := 3
    _truncatedDisplay := " /help".toList
    _isSlashCommand := true }

def c6Engine : HistorySearchEngine :=
  { entries := [c1Entry, c6SlashEntry], fuse := fun _ => [] }

theorem slash_filter_witness :
    (∀ l : List SearchResult,
      (∀ r ∈ l, r.entry._isSlashCommand = isSlashCommand r.entry.display) →
      slashStage { } l = l.filter (fun r => !r.entry._isSlashCommand)) ∧
    (∀ r ∈ search c6Engine { }, r.entry._isSlashCommand = false) ∧
    (search c6Engine { }).length ≤ (search c6Engine { includeSlashCommands := true }).length :=
  slash_filter_spec c6Engine { } (by decide) rfl

/-! ## Claim C9 — multi-client aggregation and the stable descending sort -/

lemma orderedInsert_ts_cons (a b : HistoryEntry) (l : List HistoryEntry) :
    List.orderedInsert tsGE a (b :: l) =
      if tsGE a b then a :: b :: l else b :: List.orderedInsert tsGE a l := rfl

lemma filter_orderedInsert_ts (t : Int) (a : HistoryEntry) (m : List HistoryEntry) :
    (List.orderedInsert tsGE a m).filter (fun x => x.timestamp == t) =
      if a.timestamp == t then a :: m.filter (fun x => x.timestamp == t)
      else m.filter (fun x => x.timestamp == t) := by
  induction m with
  | nil =>
    by_cases hpa : (a.timestamp == t) = true <;>
      simp [List.orderedInsert, List.filter, hpa]
  | cons b l ih =>
    rw [orderedInsert_ts_cons]
    by_cases hab : tsGE a b
    · rw [if_pos hab]
      by_cases hpa : (a.timestamp == t) = true <;> simp [List.filter_cons, hpa]
    · rw [if_neg hab]
      have hlt : a.timestamp < b.timestamp := lt_of_not_le hab
      by_cases hpa : (a.timestamp == t) = true
      · have hat : a.timestamp = t := by simpa using hpa
        have hpb : (b.timestamp == t) = false := by simp; omega
        rw [List.filter_cons, hpb]
        simp only [Bool.false_eq_true, if_false, ih, hpa, if_pos]
        rw [List.filter_cons, hpb]
        simp
      · rw [List.filter_cons, ih]
        simp only [hpa, Bool.false_eq_true, if_false]
        rw [List.filter_cons]

lemma filter_sortByTimestampDesc (t : Int) (l : List HistoryEntry) :
    (sortByTimestampDesc l).filter (fun x => x.timestamp == t) =
      l.filter (fun x => x.timestamp == t) := by
  induction l with
  | nil => rfl
  | cons a l ih =>
    show (List.orderedInsert tsGE a (List.insertionSort tsGE l)).filter _ = _
    rw [filter_orderedInsert_ts]
    have ih' : (List.insertionSort tsGE l).filter (fun x => x.timestamp == t) =
        l.filter (fun x => x.timestamp == t) := ih
    by_cases hpa : (a.timestamp == t) = true <;>
      simp [List.filter_cons, hpa, ih']

/-- Claim C9 — `parseMultiClientHistory` returns a permutation of the
concatenated adapter contributions sorted by timestamp descending, and the
sort is stable (entries of equal timestamp keep their concatenation order);
an erroring adapter contributes nothing and does not fail the aggregate. -/
theorem multi_client_sort_spec (clients : Option (List JSString))
    (oc : Except Unit (List EnrichedEntry))
    (cc cx gm ow : Except Unit (List HistoryEntry)) :
    (parseMultiClientHistory clients oc cc cx gm ow).Perm
        (allClientEntries clients oc cc cx gm ow) ∧
    List.Pairwise (fun a b => b.timestamp ≤ a.timestamp)
      (parseMultiClientHistory clients oc cc cx gm ow) ∧
    (∀ t : Int,
      (parseMultiClientHistory clients oc cc cx gm ow).filter (fun x => x.timestamp == t) =
        (allClientEntries clients oc cc cx gm ow).filter (fun x => x.timestamp == t)) ∧
    parseMultiClientHistory clients (Except.error ()) cc cx gm ow =
      parseMultiClientHistory clients (Except.ok []) cc cx gm ow ∧
    parseMultiClientHistory clients oc (Except.error ()) cx gm ow =
      parseMultiClientHistory clients oc (Except.ok []) cx gm ow ∧
    parseMultiClientHistory clients oc cc (Except.error ()) gm ow =
      parseMultiClientHistory clients oc cc (Except.ok []) gm ow ∧
    parseMultiClientHistory clients oc cc cx (Except.error ()) ow =
      parseMultiClientHistory clients oc cc cx (Except.ok []) ow ∧
    parseMultiClientHistory clients oc cc cx gm (Except.error ()) =
      parseMultiClientHistory clients oc cc cx gm (Except.ok []) := by
  refine ⟨List.perm_insertionSort tsGE _, List.sorted_insertionSort tsGE _,
    fun t => filter_sortByTimestampDesc t _, rfl, rfl, rfl, rfl, rfl⟩
